import Mathlib

/-!
Verification of the `kisstdlib` deferred, batched, dependency-aware commit
engine (`kisstdlib.fs.DeferredSync` and the `atomic_*` helpers).

The engine itself (`kisstdlib/fs.py`) is not present in the source tree that
accompanies this development; only its test suite (`test/test_fs.py`) is.
The definitions below are therefore modelled from the specification of the
engine, and they are calibrated against the exact dry-run record sequences
that `test/test_fs.py` asserts: every concrete scenario checked by
`atomic1` in that test is reproduced verbatim by `dryRun` below.
-/

namespace Kisstdlib

/-- Paths are plain strings, exactly as the Python code passes them around. -/
abbrev Path := String

/-- Modelled from the spec: chars of a path strictly before its last `/`,
or `none` when the path has no `/` at all. -/
def parentChars : List Char → Option (List Char)
  | [] => none
  | c :: rest =>
    match parentChars rest with
    | some t => some (c :: t)
    | none => if c = '/' then some [] else none

/-- Modelled from the spec: the parent directory of a path, `"."` for a bare
file name, matching the directory names appearing in the test's expected
`fsync_dir` records. -/
def parentDir (p : Path) : Path :=
  match parentChars p.data with
  | some t => String.mk t
  | none => "."

/-- Modelled from the spec (Temp-File Writer): the sibling temporary path of a
destination, `dest + ".part"`. -/
def tmpName (d : Path) : Path := d ++ ".part"

/-- Modelled from the spec (§3 data model): an `Operation` is an immutable
description of one logical mutation. -/
inductive Op where
  | write (dest : Path) (bytes : List Nat)
  | rename (src dest : Path) (replace : Bool)
  | link (src dest : Path) (replace followSymlinks : Bool)
  | symlink (target dest : Path) (replace : Bool)
  | copy (src dest : Path) (replace followSymlinks : Bool)
  | move (src dest : Path) (replace : Bool)
  | unlink (path : Path)
deriving DecidableEq

/-- Modelled from the spec: an entry of the Pending Log is an `Operation` or a
`Barrier` marker. -/
inductive Entry where
  | op (o : Op)
  | barrier
deriving DecidableEq

/-- Modelled from the spec: the Pending Log, an append-only sequence of
Operations and inserted Barrier markers. -/
abbrev Log := List Entry

/-- Modelled from the spec: the source path an `Operation` reads, used by the
Dependency Scheduler.  `Write` creates fresh content and a `Symlink` target is
not required to exist, so neither induces a dependency. -/
def Op.srcPath : Op → Option Path
  | .write .. => none
  | .rename s _ _ => some s
  | .link s _ _ _ => some s
  | .symlink .. => none
  | .copy s _ _ _ => some s
  | .move s _ _ => some s
  | .unlink p => some p

/-- Modelled from the spec: the destination path an `Operation` produces. -/
def Op.destPath : Op → Option Path
  | .write d _ => some d
  | .rename _ d _ => some d
  | .link _ d _ _ => some d
  | .symlink _ d _ => some d
  | .copy _ d _ _ => some d
  | .move _ d _ => some d
  | .unlink _ => none

/-- Modelled from the spec: the Operations of the Log's currently open Epoch,
i.e. the maximal suffix of the Log after its last Barrier. -/
def openEpochOps (l : Log) : List Op :=
  l.foldl
    (fun acc e =>
      match e with
      | .barrier => []
      | .op o => acc ++ [o])
    []

/-- Modelled from the spec (dependency rule): a new Operation needs a Barrier
before it exactly when its source equals the destination of some Operation of
the currently open Epoch. -/
def dependsOnOpen (l : Log) (o : Op) : Bool :=
  match o.srcPath with
  | none => false
  | some s => (openEpochOps l).any fun a => a.destPath == some s

/-- Modelled from the spec (`append`): add an Operation to the Log, inserting
a Barrier first when the dependency rule fires. -/
def appendOp (l : Log) (o : Op) : Log :=
  (if dependsOnOpen l o then l ++ [.barrier] else l) ++ [.op o]

/-- Modelled from the spec (§6 logical operation API): `atomic_write`. -/
def atomic_write (bytes : List Nat) (dest : Path) (dsync : Log) : Log :=
  appendOp dsync (.write dest bytes)

/-- Modelled from the spec (§6 logical operation API): `atomic_rename`. -/
def atomic_rename (src dest : Path) (replace : Bool) (dsync : Log) : Log :=
  appendOp dsync (.rename src dest replace)

/-- Modelled from the spec (§6 logical operation API): `atomic_link`. -/
def atomic_link (src dest : Path) (replace followSymlinks : Bool) (dsync : Log) : Log :=
  appendOp dsync (.link src dest replace followSymlinks)

/-- Modelled from the spec (§6 logical operation API): `atomic_symlink`. -/
def atomic_symlink (target dest : Path) (replace : Bool) (dsync : Log) : Log :=
  appendOp dsync (.symlink target dest replace)

/-- Modelled from the spec (§6 logical operation API): `atomic_copy2`. -/
def atomic_copy2 (src dest : Path) (replace followSymlinks : Bool) (dsync : Log) : Log :=
  appendOp dsync (.copy src dest replace followSymlinks)

/-- Modelled from the spec (§6 logical operation API): `atomic_move`. -/
def atomic_move (src dest : Path) (replace : Bool) (dsync : Log) : Log :=
  appendOp dsync (.move src dest replace)

/-- Modelled from the spec: split the Log at its Barriers into Epochs, the
first Epoch first. -/
def epochsOf (l : Log) : List (List Op) :=
  l.foldr
    (fun e acc =>
      match e with
      | .barrier => [] :: acc
      | .op o =>
        match acc with
        | [] => [[o]]
        | E :: rest => (o :: E) :: rest)
    []

/-- Modelled from the spec: one planned executor step; `Step.record` renders
it into the dry-run output form used by the tests. -/
inductive Step where
  | fsync (p : Path)
  | rename (s d : Path)
  | replace (s d : Path)
  | fsyncWin (p : Path)
  | fsyncDir (p : Path)
  | unlink (p : Path)
  | barrier
deriving DecidableEq

/-- Lexicographic strict order on char lists, by code point, matching
Python's ordering of `str` for the ASCII paths the engine handles. -/
def charsLt : List Char → List Char → Bool
  | _, [] => false
  | [], _ :: _ => true
  | a :: as, b :: bs =>
    if a.toNat < b.toNat then true
    else if b.toNat < a.toNat then false
    else charsLt as bs

/-- Lexicographic strict order on paths. -/
def pathLt (a b : Path) : Bool := charsLt a.data b.data

/-- Insert a path into an ascending duplicate-free list, keeping it ascending
and duplicate-free; used to model Python's deduplicating sorted traversal of
the per-phase path sets. -/
def insertPath (x : Path) : List Path → List Path
  | [] => [x]
  | y :: ys =>
    if x = y then y :: ys
    else if pathLt x y then x :: y :: ys
    else y :: insertPath x ys

/-- Sort a list of paths ascending while removing duplicates. -/
def sortDedup (xs : List Path) : List Path := xs.foldr insertPath []

/-- Modelled from the spec: the temp file an Operation creates and must fsync
in phase 1.  Every destination-creating Operation (`Write`, `Link`, `Symlink`,
`Copy`, `Move`) is staged through `dest + ".part"`; a `Rename` moves an
already durable file and an `Unlink` creates nothing. -/
def Op.tmpFsync : Op → Option Path
  | .write d _ => some (tmpName d)
  | .rename .. => none
  | .link _ d _ _ => some (tmpName d)
  | .symlink _ d _ => some (tmpName d)
  | .copy _ d _ _ => some (tmpName d)
  | .move _ d _ => some (tmpName d)
  | .unlink _ => none

/-- Modelled from the spec: the phase-2 placement step of an Operation: an
atomic rename, or an atomic replace when `replace` is requested. -/
def Op.placement : Op → Option Step
  | .write d _ => some (.rename (tmpName d) d)
  | .rename s d r => some (if r then .replace s d else .rename s d)
  | .link _ d r _ => some (if r then .replace (tmpName d) d else .rename (tmpName d) d)
  | .symlink _ d r => some (if r then .replace (tmpName d) d else .rename (tmpName d) d)
  | .copy _ d r _ => some (if r then .replace (tmpName d) d else .rename (tmpName d) d)
  | .move _ d r => some (if r then .replace (tmpName d) d else .rename (tmpName d) d)
  | .unlink _ => none

/-- Modelled from the spec: the path a `Move` (or a bare `Unlink`) removes in
phase 5, after the destination is durable. -/
def Op.unlinkSrc : Op → Option Path
  | .move s _ _ => some s
  | .unlink p => some p
  | _ => none

/-- Whether the Operation creates content at its destination (every kind but
`Rename`, which relocates an existing durable file, and `Unlink`). -/
def Op.destCreating : Op → Bool
  | .write .. => true
  | .link .. => true
  | .symlink .. => true
  | .copy .. => true
  | .move .. => true
  | .rename .. => false
  | .unlink _ => false

/-- The source path of a placement step. -/
def Step.placeSrc : Step → Option Path
  | .rename s _ => some s
  | .replace s _ => some s
  | _ => none

/-- The destination path of a placement step. -/
def Step.placeDest : Step → Option Path
  | .rename _ d => some d
  | .replace _ d => some d
  | _ => none

/-- Modelled from the spec (Commit Planner, phase 1): the temp files of the
Epoch, fsynced as a deduplicated sorted batch. -/
def phase1 (E : List Op) : List Path := sortDedup (E.filterMap Op.tmpFsync)

/-- Modelled from the spec (Commit Planner, phase 2): the placement steps of
the Epoch, in Operation order. -/
def phase2 (E : List Op) : List Step := E.filterMap Op.placement

/-- Modelled from the spec (Commit Planner, phase 3): the second fsync of each
newly placed destination. -/
def phase3 (E : List Op) : List Path :=
  sortDedup ((phase2 E).filterMap Step.placeDest)

/-- The distinct parent directories of the destinations placed by phase 2. -/
def destDirs (E : List Op) : List Path :=
  sortDedup (((phase2 E).filterMap Step.placeDest).map parentDir)

/-- The distinct parent directories of the sources consumed by phase 2. -/
def srcDirs (E : List Op) : List Path :=
  sortDedup (((phase2 E).filterMap Step.placeSrc).map parentDir)

/-- Modelled from the spec (Commit Planner, phase 4): every distinct parent
directory touched by phase 2, destination parents first, each exactly once. -/
def phase4 (E : List Op) : List Path :=
  destDirs E ++ (srcDirs E).filter fun p => !(decide (p ∈ destDirs E))

/-- Modelled from the spec (Commit Planner, phase 5): the deferred unlinks of
the Epoch, in Operation order. -/
def phase5 (E : List Op) : List Path := E.filterMap Op.unlinkSrc

/-- Modelled from the spec (Commit Planner, phase 6): every distinct parent
directory touched by phase 5. -/
def phase6 (E : List Op) : List Path := sortDedup ((phase5 E).map parentDir)

/-- The steps of an Epoch's phases 1 and 2. -/
def p12 (E : List Op) : List Step :=
  (phase1 E).map Step.fsync ++ phase2 E

/-- The steps of an Epoch's phases 3 to 6. -/
def p3456 (E : List Op) : List Step :=
  (phase3 E).map Step.fsyncWin ++ (phase4 E).map Step.fsyncDir
    ++ (phase5 E).map Step.unlink ++ (phase6 E).map Step.fsyncDir

/-- Modelled from the spec and calibrated against `test_fs.py`: the committed
step sequence after an Epoch's phases 1-2: its own phases 3-6, interleaved
with the next Epoch's phases 1-2, a `barrier` marker separating each Epoch's
placements from the durability work that follows them. -/
def planRest (prev : List Op) : List (List Op) → List Step
  | [] => p3456 prev
  | E :: rest => Step.barrier :: (p3456 prev ++ p12 E) ++ planRest E rest

/-- The committed step sequence of a list of Epochs. -/
def planEpochs : List (List Op) → List Step
  | [] => []
  | E :: rest => p12 E ++ planRest E rest

/-- Modelled from the spec (Commit Planner + Executor): the ordered step
sequence a commit walks, for either executor mode. -/
def plan (l : Log) : List Step := planEpochs (epochsOf l)

/-- Modelled from the spec (dry-run executor): the textual record of a step,
in the exact list-of-strings form `test_fs.py` asserts. -/
def Step.record : Step → List String
  | .fsync p => ["fsync", p]
  | .rename s d => ["rename", s, d]
  | .replace s d => ["replace", s, d]
  | .fsyncWin p => ["fsync_win", p]
  | .fsyncDir p => ["fsync_dir", p]
  | .unlink p => ["unlink", p]
  | .barrier => ["barrier"]

/-- Modelled from the spec (dry-run executor): `commit(dry_run=True, out)`
appends one record per planned step to `out`. -/
def dryRun (l : Log) : List (List String) := (plan l).map Step.record

/-- Modelled from the spec (live executor): a real OS call.  The `fsync_win`
record denotes a second `fsync` of the placed destination file. -/
inductive Syscall where
  | fsync (p : Path)
  | rename (s d : Path)
  | replace (s d : Path)
  | fsyncDir (p : Path)
  | unlink (p : Path)
deriving DecidableEq

/-- Modelled from the spec: the OS call a step issues in live mode; a
`barrier` marker issues none. -/
def Step.syscall : Step → Option Syscall
  | .fsync p => some (.fsync p)
  | .rename s d => some (.rename s d)
  | .replace s d => some (.replace s d)
  | .fsyncWin p => some (.fsync p)
  | .fsyncDir p => some (.fsyncDir p)
  | .unlink p => some (.unlink p)
  | .barrier => none

/-- Parse a dry-run record back into the OS call it stands for; a `barrier`
record stands for no call. -/
def recordSyscall : List String → Option Syscall
  | ["fsync", p] => some (.fsync p)
  | ["rename", s, d] => some (.rename s d)
  | ["replace", s, d] => some (.replace s d)
  | ["fsync_win", p] => some (.fsync p)
  | ["fsync_dir", p] => some (.fsyncDir p)
  | ["unlink", p] => some (.unlink p)
  | _ => none

/-- The OS calls a list of planned steps issues. -/
def stepCalls (ss : List Step) : List Syscall := ss.filterMap Step.syscall

/-- The OS calls committing a list of Epochs issues when nothing fails. -/
def callsOfEpochs (es : List (List Op)) : List Syscall := stepCalls (planEpochs es)

/-- Modelled from the spec (live executor): issue a list of OS calls one by
one, numbering them; the oracle says which call index fails.  Returns the
calls actually issued, the failing index if any, and the next index. -/
def issue (fails : Nat → Bool) : Nat → List Syscall → List Syscall × Option Nat × Nat
  | idx, [] => ([], none, idx)
  | idx, c :: cs =>
    if fails idx then ([], some idx, idx)
    else
      let r := issue fails (idx + 1) cs
      (c :: r.1, r.2.1, r.2.2)

/-- Modelled from the spec (live executor): run the calls of a step block. -/
def runSteps (fails : Nat → Bool) (idx : Nat) (ss : List Step) :
    List Syscall × Option Nat × Nat :=
  issue fails idx (stepCalls ss)

/-- Modelled from the spec (live executor): execute the remainder of a commit
once the Epoch `prev` has had its phases 1-2 performed, aborting at the first
failed call and reporting which Epochs are not yet complete. -/
def runRest (fails : Nat → Bool) (idx : Nat) (prev : List Op) :
    List (List Op) → List Syscall × Option Nat × List (List Op)
  | [] =>
    let r := runSteps fails idx (p3456 prev)
    match r.2.1 with
    | some j => (r.1, some j, [prev])
    | none => (r.1, none, [])
  | E :: rest =>
    let r1 := runSteps fails idx (p3456 prev)
    match r1.2.1 with
    | some j => (r1.1, some j, prev :: E :: rest)
    | none =>
      let r2 := runSteps fails r1.2.2 (p12 E)
      match r2.2.1 with
      | some j => (r1.1 ++ r2.1, some j, E :: rest)
      | none =>
        let r3 := runRest fails r2.2.2 E rest
        (r1.1 ++ r2.1 ++ r3.1, r3.2.1, r3.2.2)

/-- Modelled from the spec (live executor): execute a list of Epochs from the
start, aborting at the first failed call; returns the calls issued, the
failing call index if any, and the Epochs still pending. -/
def commitEpochs (fails : Nat → Bool) :
    List (List Op) → List Syscall × Option Nat × List (List Op)
  | [] => ([], none, [])
  | E :: rest =>
    let r1 := runSteps fails 0 (p12 E)
    match r1.2.1 with
    | some j => (r1.1, some j, E :: rest)
    | none =>
      let r2 := runRest fails r1.2.2 E rest
      (r1.1 ++ r2.1, r2.2.1, r2.2.2)

/-- Modelled from the spec (live executor): `commit(dry_run=False)`.  Issues
the planned OS calls in order, aborts on the first failure, and returns the
calls issued, the failing call index if any, and the Epochs still pending. -/
def commitLive (fails : Nat → Bool) (l : Log) :
    List Syscall × Option Nat × List (List Op) :=
  commitEpochs fails (epochsOf l)

/-- The Log holding a given list of Epochs, Barriers between them. -/
def logOfEpochs (es : List (List Op)) : Log :=
  List.intercalate [Entry.barrier] (es.map fun E => E.map Entry.op)

/-- Tag a block of steps with its Epoch index and phase number. -/
def tagged (k ph : Nat) (ss : List Step) : List (Nat × Nat × Step) :=
  ss.map fun s => (k, ph, s)

/-- The steps of an Epoch's phases 1-2, tagged with Epoch index and phase. -/
def p12T (k : Nat) (E : List Op) : List (Nat × Nat × Step) :=
  tagged k 1 ((phase1 E).map Step.fsync) ++ tagged k 2 (phase2 E)

/-- The steps of an Epoch's phases 3-6, tagged with Epoch index and phase. -/
def p3456T (k : Nat) (E : List Op) : List (Nat × Nat × Step) :=
  tagged k 3 ((phase3 E).map Step.fsyncWin) ++ tagged k 4 ((phase4 E).map Step.fsyncDir)
    ++ tagged k 5 ((phase5 E).map Step.unlink) ++ tagged k 6 ((phase6 E).map Step.fsyncDir)

/-- The committed step sequence after Epoch number `k`'s phases 1-2, tagged
with Epoch indices and phase numbers; Barrier markers carry phase 0 of the
Epoch they precede. -/
def planRestT (k : Nat) (prev : List Op) :
    List (List Op) → List (Nat × Nat × Step)
  | [] => p3456T k prev
  | E :: rest =>
    (k + 1, 0, Step.barrier) :: (p3456T k prev ++ p12T (k + 1) E) ++ planRestT (k + 1) E rest

/-- The committed step sequence of a Log, every step tagged with the index of
the Epoch it belongs to and its phase number. -/
def planT (l : Log) : List (Nat × Nat × Step) :=
  match epochsOf l with
  | [] => []
  | E :: rest => p12T 0 E ++ planRestT 0 E rest

/-- Modelled from the spec: engine instances live in a store of Logs; a
handle below `next` designates a live engine. -/
structure Heap where
  next : Nat
  logs : Nat → Log

/-- Modelled from the spec (`copy()`): allocate an independent engine whose
Log has the same contents as the one at handle `i`. -/
def Heap.copy (h : Heap) (i : Nat) : Heap × Nat :=
  (⟨h.next + 1, fun k => if k = h.next then h.logs i else h.logs k⟩, h.next)

/-- Modelled from the spec (`commit(dry_run=True, out)`): the Commit Planner
reads, and never mutates, the Log of the committed engine; the records go to
the output sequence. -/
def Heap.commitDry (h : Heap) (i : Nat) : List (List String) × Heap :=
  (dryRun (h.logs i), h)

/-- Modelled from the spec: append an Operation to the engine at handle `i`,
through the Dependency Scheduler. -/
def Heap.append (h : Heap) (i : Nat) (o : Op) : Heap :=
  ⟨h.next, fun k => if k = i then appendOp (h.logs k) o else h.logs k⟩

/-- The Log of the concrete scenario: three `atomic_write` calls for
`test.a`, `test.b`, `test.c` into the current directory. -/
def writesLog (b1 b2 b3 : List Nat) : Log :=
  atomic_write b3 "test.c" (atomic_write b2 "test.b" (atomic_write b1 "test.a" []))

/-- The Log of the concrete scenario: the three writes followed by
`atomic_rename("test.a", "a/test.a", replace=False)`. -/
def renameLog (b1 b2 b3 : List Nat) : Log :=
  atomic_rename "test.a" "a/test.a" false (writesLog b1 b2 b3)

/-! ### Helper lemmas about paths and the sorted deduplicating insert -/

theorem parentChars_of_noSlash : ∀ (s : List Char), (∀ c ∈ s, c ≠ '/') → parentChars s = none := by
  intro s
  induction s with
  | nil => intro _; rfl
  | cons c cs ih =>
    intro h
    have hc : c ≠ '/' := h c (by simp)
    have : parentChars cs = none := ih fun c' hc' => h c' (by simp [hc'])
    simp [parentChars, this, hc]

theorem parentChars_append (l s : List Char) (hs : ∀ c ∈ s, c ≠ '/') :
    parentChars (l ++ s) = parentChars l := by
  induction l with
  | nil => simpa using parentChars_of_noSlash s hs
  | cons c cs ih =>
    show (match parentChars (cs ++ s) with
        | some t => some (c :: t)
        | none => if c = '/' then some [] else none)
      = (match parentChars cs with
        | some t => some (c :: t)
        | none => if c = '/' then some [] else none)
    rw [ih]

theorem string_data_append (a b : String) : (a ++ b).data = a.data ++ b.data := by
  cases a; cases b; rfl

theorem parentDir_tmpName (d : Path) : parentDir (tmpName d) = parentDir d := by
  unfold parentDir tmpName
  rw [string_data_append, parentChars_append]
  decide

theorem tmpName_ne (d : Path) : tmpName d ≠ d := by
  intro h
  have hlen := congrArg String.length h
  rw [tmpName, String.length_append] at hlen
  have h5 : (".part" : String).length = 5 := rfl
  omega

theorem charsLt_nil_right : ∀ (m : List Char), charsLt m [] = false := by
  intro m
  cases m <;> rfl

theorem charsLt_cons (a b : Char) (as bs : List Char) :
    charsLt (a :: as) (b :: bs)
      = if a.toNat < b.toNat then true
        else if b.toNat < a.toNat then false
        else charsLt as bs := rfl

theorem charsLt_irrefl : ∀ (l : List Char), charsLt l l = false := by
  intro l
  induction l with
  | nil => rfl
  | cons a as ih => simp [charsLt_cons, Nat.lt_irrefl, ih]

theorem charsLt_trans : ∀ (l m n : List Char),
    charsLt l m = true → charsLt m n = true → charsLt l n = true
  | _, m, [] => by
    intro _ hmn
    rw [charsLt_nil_right] at hmn
    cases hmn
  | [], _, _ :: _ => by
    intro _ _
    rfl
  | _ :: _, [], _ :: _ => by
    intro hlm _
    rw [charsLt_nil_right] at hlm
    cases hlm
  | a :: as, b :: bs, c :: cs => by
    intro hlm hmn
    rw [charsLt_cons] at hlm hmn
    rw [charsLt_cons]
    rcases Nat.lt_trichotomy a.toNat b.toNat with h1 | h1 | h1
    · rcases Nat.lt_trichotomy b.toNat c.toNat with h2 | h2 | h2
      · rw [if_pos (by omega)]
      · rw [if_pos (by omega)]
      · rw [if_neg (by omega), if_pos (by omega)] at hmn
        cases hmn
    · rcases Nat.lt_trichotomy b.toNat c.toNat with h2 | h2 | h2
      · rw [if_pos (by omega)]
      · rw [if_neg (by omega), if_neg (by omega)] at hlm
        rw [if_neg (by omega), if_neg (by omega)] at hmn
        rw [if_neg (by omega), if_neg (by omega)]
        exact charsLt_trans as bs cs hlm hmn
      · rw [if_neg (by omega), if_pos (by omega)] at hmn
        cases hmn
    · rw [if_neg (by omega), if_pos (by omega)] at hlm
      cases hlm

theorem char_eq_of_toNat_eq {a b : Char} (h : a.toNat = b.toNat) : a = b :=
  Char.ext (UInt32.toNat.inj h)

theorem charsLt_total : ∀ (l m : List Char),
    charsLt l m = false → charsLt m l = true ∨ l = m
  | [], [] => fun _ => Or.inr rfl
  | [], _ :: _ => by
    intro h
    cases h
  | _ :: _, [] => fun _ => Or.inl rfl
  | a :: as, b :: bs => by
    intro h
    rw [charsLt_cons] at h
    rcases Nat.lt_trichotomy a.toNat b.toNat with h1 | h1 | h1
    · rw [if_pos h1] at h
      cases h
    · rw [if_neg (by omega), if_neg (by omega)] at h
      rcases charsLt_total as bs h with h' | h'
      · left
        rw [charsLt_cons, if_neg (by omega), if_neg (by omega)]
        exact h'
      · right
        rw [char_eq_of_toNat_eq h1, h']
    · left
      rw [charsLt_cons, if_pos h1]

theorem path_eq_of_data_eq {a b : Path} (h : a.data = b.data) : a = b := by
  cases a
  cases b
  exact congrArg String.mk h

theorem pathLt_trans {a b c : Path} (h1 : pathLt a b = true) (h2 : pathLt b c = true) :
    pathLt a c = true :=
  charsLt_trans a.data b.data c.data h1 h2

theorem pathLt_irrefl (a : Path) : pathLt a a = false := charsLt_irrefl a.data

theorem ne_of_pathLt {a b : Path} (h : pathLt a b = true) : a ≠ b := by
  intro he
  rw [he, pathLt_irrefl] at h
  cases h

theorem pathLt_total {a b : Path} (h : pathLt a b = false) :
    pathLt b a = true ∨ a = b := by
  rcases charsLt_total a.data b.data h with h' | h'
  · exact Or.inl h'
  · exact Or.inr (path_eq_of_data_eq h')

theorem mem_insertPath {x a : Path} : ∀ {l : List Path}, a ∈ insertPath x l ↔ a = x ∨ a ∈ l := by
  intro l
  induction l with
  | nil => simp [insertPath]
  | cons y ys ih =>
    by_cases hxy : x = y
    · subst hxy
      simp only [insertPath, if_pos rfl]
      constructor
      · intro h; exact Or.inr h
      · rintro (h | h) <;> simp [h]
    · by_cases hlt : pathLt x y = true
      · simp only [insertPath, if_neg hxy, if_pos hlt]
        simp [or_comm, or_left_comm, or_assoc]
      · simp only [insertPath, if_neg hxy, if_neg hlt]
        simp only [List.mem_cons, ih]
        tauto

theorem mem_sortDedup {a : Path} : ∀ {xs : List Path}, a ∈ sortDedup xs ↔ a ∈ xs := by
  intro xs
  induction xs with
  | nil => simp [sortDedup]
  | cons x xs ih =>
    show a ∈ insertPath x (sortDedup xs) ↔ _
    rw [mem_insertPath, ih]
    simp

theorem sorted_insertPath {x : Path} :
    ∀ {l : List Path}, l.Pairwise (fun a b => pathLt a b = true)
      → (insertPath x l).Pairwise (fun a b => pathLt a b = true) := by
  intro l
  induction l with
  | nil => intro _; simp [insertPath]
  | cons y ys ih =>
    intro h
    rcases List.pairwise_cons.mp h with ⟨hy, hys⟩
    by_cases hxy : x = y
    · simpa [insertPath, hxy] using h
    · by_cases hlt : pathLt x y = true
      · simp only [insertPath, if_neg hxy, if_pos hlt]
        refine List.pairwise_cons.mpr ⟨?_, h⟩
        intro b hb
        rcases List.mem_cons.mp hb with hb | hb
        · exact hb ▸ hlt
        · exact pathLt_trans hlt (hy b hb)
      · simp only [insertPath, if_neg hxy, if_neg hlt]
        refine List.pairwise_cons.mpr ⟨?_, ih hys⟩
        intro b hb
        rcases mem_insertPath.mp hb with hb | hb
        · rw [hb]
          have hf : pathLt x y = false := by
            cases h' : pathLt x y
            · rfl
            · exact absurd h' hlt
          rcases pathLt_total hf with h' | h'
          · exact h'
          · exact absurd h' hxy
        · exact hy b hb

theorem sorted_sortDedup : ∀ (xs : List Path),
    (sortDedup xs).Pairwise (fun a b => pathLt a b = true) := by
  intro xs
  induction xs with
  | nil => simp [sortDedup]
  | cons x xs ih => exact sorted_insertPath ih

theorem nodup_sortDedup (xs : List Path) : (sortDedup xs).Nodup :=
  (sorted_sortDedup xs).imp ne_of_pathLt

/-! ### Helper lemmas about the open Epoch and the Dependency Scheduler -/

theorem openEpochOps_append_op (l : Log) (o : Op) :
    openEpochOps (l ++ [Entry.op o]) = openEpochOps l ++ [o] := by
  unfold openEpochOps
  rw [List.foldl_append]
  rfl

theorem openEpochOps_append_barrier (l : Log) :
    openEpochOps (l ++ [Entry.barrier]) = [] := by
  unfold openEpochOps
  rw [List.foldl_append]
  rfl

theorem mem_openEpochOps_of_noBarrier (l : Log) (A : Op) :
    ∀ (l2 : Log), (∀ e ∈ l2, e ≠ Entry.barrier) →
      A ∈ openEpochOps (l ++ Entry.op A :: l2) := by
  intro l2
  induction l2 using List.reverseRecOn with
  | nil =>
    intro _
    rw [show l ++ [Entry.op A] = l ++ [Entry.op A] from rfl, openEpochOps_append_op]
    simp
  | append_singleton l2 e ih =>
    intro h
    have he : e ≠ Entry.barrier := h e (by simp)
    cases e with
    | barrier => exact absurd rfl he
    | op o =>
      have hsplit : l ++ Entry.op A :: (l2 ++ [Entry.op o])
          = (l ++ Entry.op A :: l2) ++ [Entry.op o] := by simp
      rw [hsplit, openEpochOps_append_op]
      exact List.mem_append_left _ (ih fun e' he' => h e' (by simp [he']))

theorem dependsOnOpen_iff (l : Log) (o : Op) :
    dependsOnOpen l o = true
      ↔ ∃ s, o.srcPath = some s ∧ ∃ A ∈ openEpochOps l, A.destPath = some s := by
  unfold dependsOnOpen
  cases h : o.srcPath with
  | none => simp [h]
  | some s => simp [h, List.any_eq_true]

/-! ### Phase-level membership helpers -/

theorem mem_phase1 {E : List Op} {o : Op} {t : Path}
    (ho : o ∈ E) (ht : o.tmpFsync = some t) : t ∈ phase1 E := by
  unfold phase1
  rw [mem_sortDedup]
  exact List.mem_filterMap.mpr ⟨o, ho, ht⟩

theorem mem_phase2 {E : List Op} {o : Op} {st : Step}
    (ho : o ∈ E) (hst : o.placement = some st) : st ∈ phase2 E :=
  List.mem_filterMap.mpr ⟨o, ho, hst⟩

theorem mem_phase3 {E : List Op} {st : Step} {d : Path}
    (hst : st ∈ phase2 E) (hd : st.placeDest = some d) : d ∈ phase3 E := by
  unfold phase3
  rw [mem_sortDedup]
  exact List.mem_filterMap.mpr ⟨st, hst, hd⟩

theorem mem_destDirs {E : List Op} {st : Step} {d : Path}
    (hst : st ∈ phase2 E) (hd : st.placeDest = some d) : parentDir d ∈ destDirs E := by
  unfold destDirs
  rw [mem_sortDedup]
  exact List.mem_map.mpr ⟨d, List.mem_filterMap.mpr ⟨st, hst, hd⟩, rfl⟩

theorem mem_phase4_dest {E : List Op} {st : Step} {d : Path}
    (hst : st ∈ phase2 E) (hd : st.placeDest = some d) : parentDir d ∈ phase4 E :=
  List.mem_append_left _ (mem_destDirs hst hd)

theorem mem_phase5 {E : List Op} {o : Op} {s : Path}
    (ho : o ∈ E) (hs : o.unlinkSrc = some s) : s ∈ phase5 E :=
  List.mem_filterMap.mpr ⟨o, ho, hs⟩

/-! ### Lemmas about the tagged plan -/

theorem tagged_map_snd (k ph : Nat) (ss : List Step) :
    (tagged k ph ss).map (fun x => x.2.2) = ss := by
  unfold tagged
  rw [List.map_map]
  have hcomp : ((fun x : Nat × Nat × Step => x.2.2) ∘ fun s => (k, ph, s)) = id :=
    funext fun s => rfl
  rw [hcomp, List.map_id]

theorem p12T_map (k : Nat) (E : List Op) :
    (p12T k E).map (fun x => x.2.2) = p12 E := by
  simp [p12T, p12, tagged_map_snd]

theorem p3456T_map (k : Nat) (E : List Op) :
    (p3456T k E).map (fun x => x.2.2) = p3456 E := by
  simp [p3456T, p3456, tagged_map_snd]

theorem planRestT_map : ∀ (rest : List (List Op)) (prev : List Op) (k : Nat),
    (planRestT k prev rest).map (fun x => x.2.2) = planRest prev rest := by
  intro rest
  induction rest with
  | nil => intro prev k; exact p3456T_map k prev
  | cons E rest ih =>
    intro prev k
    simp [planRestT, planRest, p12T_map, p3456T_map, ih]

theorem planT_map (l : Log) : (planT l).map (fun x => x.2.2) = plan l := by
  unfold planT plan planEpochs
  cases epochsOf l with
  | nil => rfl
  | cons E rest => simp [p12T_map, planRestT_map]

theorem mem_tagged_of {k ph : Nat} {s : Step} {ss : List Step} (h : s ∈ ss) :
    (k, ph, s) ∈ tagged k ph ss :=
  List.mem_map.mpr ⟨s, h, rfl⟩

theorem tag_of_mem_tagged {k ph : Nat} {ss : List Step} {x : Nat × Nat × Step}
    (h : x ∈ tagged k ph ss) : x.1 = k ∧ x.2.1 = ph := by
  obtain ⟨s, _, rfl⟩ := List.mem_map.mp h
  exact ⟨rfl, rfl⟩

theorem tag_of_mem_p12T {k : Nat} {E : List Op} {x : Nat × Nat × Step}
    (h : x ∈ p12T k E) : x.1 = k ∧ 1 ≤ x.2.1 ∧ x.2.1 ≤ 2 := by
  rcases List.mem_append.mp h with h | h
    <;> rcases tag_of_mem_tagged h with ⟨h1, h2⟩ <;> omega

theorem tag_of_mem_p3456T {k : Nat} {E : List Op} {x : Nat × Nat × Step}
    (h : x ∈ p3456T k E) : x.1 = k ∧ 3 ≤ x.2.1 ∧ x.2.1 ≤ 6 := by
  rcases List.mem_append.mp h with h | h
  · rcases List.mem_append.mp h with h | h
    · rcases List.mem_append.mp h with h | h
        <;> rcases tag_of_mem_tagged h with ⟨h1, h2⟩ <;> omega
    · rcases tag_of_mem_tagged h with ⟨h1, h2⟩
      omega
  · rcases tag_of_mem_tagged h with ⟨h1, h2⟩
    omega

theorem tag_of_mem_planRestT : ∀ {rest : List (List Op)} {prev : List Op} {k : Nat}
    {x : Nat × Nat × Step}, x ∈ planRestT k prev rest → k ≤ x.1 ∧ (x.1 = k → 3 ≤ x.2.1) := by
  intro rest
  induction rest with
  | nil =>
    intro prev k x h
    rcases tag_of_mem_p3456T h with ⟨h1, h2, _⟩
    omega
  | cons E rest ih =>
    intro prev k x h
    rcases List.mem_cons.mp h with h | h
    · subst h
      exact ⟨Nat.le_succ k, fun hk => absurd hk (by omega)⟩
    · rcases List.mem_append.mp h with h | h
      · rcases List.mem_append.mp h with h | h
        · rcases tag_of_mem_p3456T h with ⟨h1, h2, _⟩
          omega
        · rcases tag_of_mem_p12T h with ⟨h1, _, _⟩
          omega
      · rcases ih h with ⟨h1, h2⟩
        omega

theorem pairwise_tagged (k ph : Nat) (ss : List Step) :
    (tagged k ph ss).Pairwise (fun a b => a.1 = b.1 → a.2.1 ≤ b.2.1) := by
  refine List.pairwise_of_forall_mem_list ?_
  intro a ha b hb
  rcases tag_of_mem_tagged ha with ⟨_, ha2⟩
  rcases tag_of_mem_tagged hb with ⟨_, hb2⟩
  intro _
  omega

theorem pairwise_p12T (k : Nat) (E : List Op) :
    (p12T k E).Pairwise (fun a b => a.1 = b.1 → a.2.1 ≤ b.2.1) := by
  rw [p12T, List.pairwise_append]
  refine ⟨pairwise_tagged _ _ _, pairwise_tagged _ _ _, ?_⟩
  intro a ha b hb
  rcases tag_of_mem_tagged ha with ⟨_, ha2⟩
  rcases tag_of_mem_tagged hb with ⟨_, hb2⟩
  intro _
  omega

theorem pairwise_p3456T (k : Nat) (E : List Op) :
    (p3456T k E).Pairwise (fun a b => a.1 = b.1 → a.2.1 ≤ b.2.1) := by
  rw [p3456T]
  rw [List.pairwise_append]
  refine ⟨?_, pairwise_tagged _ _ _, ?_⟩
  · rw [List.pairwise_append]
    refine ⟨?_, pairwise_tagged _ _ _, ?_⟩
    · rw [List.pairwise_append]
      refine ⟨pairwise_tagged _ _ _, pairwise_tagged _ _ _, ?_⟩
      intro a ha b hb
      rcases tag_of_mem_tagged ha with ⟨_, ha2⟩
      rcases tag_of_mem_tagged hb with ⟨_, hb2⟩
      intro _
      omega
    · intro a ha b hb
      rcases List.mem_append.mp ha with ha | ha
        <;> rcases tag_of_mem_tagged ha with ⟨_, ha2⟩
        <;> rcases tag_of_mem_tagged hb with ⟨_, hb2⟩
        <;> intro _ <;> omega
  · intro a ha b hb
    rcases List.mem_append.mp ha with ha | ha
    · rcases List.mem_append.mp ha with ha | ha
        <;> rcases tag_of_mem_tagged ha with ⟨_, ha2⟩
        <;> rcases tag_of_mem_tagged hb with ⟨_, hb2⟩
        <;> intro _ <;> omega
    · rcases tag_of_mem_tagged ha with ⟨_, ha2⟩
      rcases tag_of_mem_tagged hb with ⟨_, hb2⟩
      intro _
      omega

theorem pairwise_planRestT : ∀ (rest : List (List Op)) (prev : List Op) (k : Nat),
    (planRestT k prev rest).Pairwise (fun a b => a.1 = b.1 → a.2.1 ≤ b.2.1) := by
  intro rest
  induction rest with
  | nil => intro prev k; exact pairwise_p3456T k prev
  | cons E rest ih =>
    intro prev k
    rw [planRestT, List.pairwise_append]
    refine ⟨?_, ih E (k + 1), ?_⟩
    · refine List.pairwise_cons.mpr ⟨?_, ?_⟩
      · intro b _
        intro _
        exact Nat.zero_le _
      · rw [List.pairwise_append]
        refine ⟨pairwise_p3456T k prev, pairwise_p12T (k + 1) E, ?_⟩
        intro a ha b hb
        rcases tag_of_mem_p3456T ha with ⟨ha1, _, _⟩
        rcases tag_of_mem_p12T hb with ⟨hb1, _, _⟩
        intro he
        omega
    · intro a ha b hb
      rcases tag_of_mem_planRestT hb with ⟨hb1, hb2⟩
      rcases List.mem_cons.mp ha with ha | ha
      · subst ha
        intro _
        exact Nat.zero_le _
      · rcases List.mem_append.mp ha with ha | ha
        · rcases tag_of_mem_p3456T ha with ⟨ha1, _, _⟩
          intro he
          omega
        · rcases tag_of_mem_p12T ha with ⟨ha1, _, ha2⟩
          intro he
          omega

theorem pairwise_planT (l : Log) :
    (planT l).Pairwise (fun a b => a.1 = b.1 → a.2.1 ≤ b.2.1) := by
  rw [planT]
  cases epochsOf l with
  | nil => exact List.Pairwise.nil
  | cons E rest =>
    rw [List.pairwise_append]
    refine ⟨pairwise_p12T 0 E, pairwise_planRestT rest E 0, ?_⟩
    intro a ha b hb
    rcases tag_of_mem_p12T ha with ⟨ha1, _, ha2⟩
    rcases tag_of_mem_planRestT hb with ⟨hb1, hb2⟩
    intro he
    omega

theorem p3456T_sub_planRestT : ∀ (rest : List (List Op)) (prev : List Op) (k : Nat)
    {x : Nat × Nat × Step}, x ∈ p3456T k prev → x ∈ planRestT k prev rest := by
  intro rest prev k x hx
  cases rest with
  | nil => exact hx
  | cons E rest' =>
    rw [planRestT]
    exact List.mem_cons_of_mem _ (List.mem_append_left _ (List.mem_append_left _ hx))

theorem blocks_in_planRestT : ∀ (rest : List (List Op)) (prev : List Op) (k j : Nat)
    (E : List Op), rest[j]? = some E →
    (∀ x ∈ p12T (k + 1 + j) E, x ∈ planRestT k prev rest)
    ∧ (∀ x ∈ p3456T (k + 1 + j) E, x ∈ planRestT k prev rest) := by
  intro rest
  induction rest with
  | nil =>
    intro prev k j E h
    simp at h
  | cons E' rest ih =>
    intro prev k j E h
    cases j with
    | zero =>
      rw [List.getElem?_cons_zero] at h
      injection h with h
      subst h
      constructor
      · intro x hx
        rw [planRestT]
        exact List.mem_cons_of_mem _ (List.mem_append_left _ (List.mem_append_right _ hx))
      · intro x hx
        rw [planRestT]
        exact List.mem_cons_of_mem _
          (List.mem_append_right _ (p3456T_sub_planRestT rest _ (k + 1) hx))
    | succ j' =>
      rw [List.getElem?_cons_succ] at h
      have harith : k + 1 + (j' + 1) = (k + 1) + 1 + j' := by omega
      rcases ih E' (k + 1) j' E h with ⟨h1, h2⟩
      rw [harith]
      constructor
      · intro x hx
        rw [planRestT]
        exact List.mem_cons_of_mem _ (List.mem_append_right _ (h1 x hx))
      · intro x hx
        rw [planRestT]
        exact List.mem_cons_of_mem _ (List.mem_append_right _ (h2 x hx))

theorem blocks_in_planT (l : Log) (k : Nat) (E : List Op)
    (h : (epochsOf l)[k]? = some E) :
    (∀ x ∈ p12T k E, x ∈ planT l) ∧ (∀ x ∈ p3456T k E, x ∈ planT l) := by
  rw [planT]
  cases hep : epochsOf l with
  | nil =>
    rw [hep] at h
    simp at h
  | cons E0 rest =>
    rw [hep] at h
    cases k with
    | zero =>
      rw [List.getElem?_cons_zero] at h
      injection h with h
      subst h
      exact ⟨fun x hx => List.mem_append_left _ hx,
        fun x hx => List.mem_append_right _ (p3456T_sub_planRestT rest _ 0 hx)⟩
    | succ k' =>
      rw [List.getElem?_cons_succ] at h
      have harith : (0 : Nat) + 1 + k' = k' + 1 := by omega
      rcases blocks_in_planRestT rest E0 0 k' E h with ⟨h1, h2⟩
      rw [harith] at h1 h2
      exact ⟨fun x hx => List.mem_append_right _ (h1 x hx),
        fun x hx => List.mem_append_right _ (h2 x hx)⟩

theorem placeT_mem {k : Nat} {E : List Op} {st : Step}
    (h : st ∈ phase2 E) : (k, 2, st) ∈ p12T k E :=
  List.mem_append_right _ (mem_tagged_of h)

theorem fsyncWinT_mem {k : Nat} {E : List Op} {d : Path}
    (h : d ∈ phase3 E) : (k, 3, Step.fsyncWin d) ∈ p3456T k E :=
  List.mem_append_left _ (List.mem_append_left _
    (List.mem_append_left _ (mem_tagged_of (List.mem_map.mpr ⟨d, h, rfl⟩))))

theorem fsyncDirT_mem {k : Nat} {E : List Op} {p : Path}
    (h : p ∈ phase4 E) : (k, 4, Step.fsyncDir p) ∈ p3456T k E :=
  List.mem_append_left _ (List.mem_append_left _
    (List.mem_append_right _ (mem_tagged_of (List.mem_map.mpr ⟨p, h, rfl⟩))))

theorem unlinkT_mem {k : Nat} {E : List Op} {s : Path}
    (h : s ∈ phase5 E) : (k, 5, Step.unlink s) ∈ p3456T k E :=
  List.mem_append_left _ (List.mem_append_right _
    (mem_tagged_of (List.mem_map.mpr ⟨s, h, rfl⟩)))

/-! ### Executor lemmas -/

theorem issue_cons_true {fails : Nat → Bool} {idx : Nat} {c : Syscall} {cs : List Syscall}
    (h : fails idx = true) : issue fails idx (c :: cs) = ([], some idx, idx) := by
  simp [issue, h]

theorem issue_cons_false {fails : Nat → Bool} {idx : Nat} {c : Syscall} {cs : List Syscall}
    (h : fails idx = false) :
    issue fails idx (c :: cs)
      = (c :: (issue fails (idx + 1) cs).1, (issue fails (idx + 1) cs).2.1,
          (issue fails (idx + 1) cs).2.2) := by
  simp [issue, h]

theorem issue_noFail : ∀ (cs : List Syscall) (idx : Nat),
    issue (fun _ => false) idx cs = (cs, none, idx + cs.length) := by
  intro cs
  induction cs with
  | nil => intro idx; rfl
  | cons c cs ih =>
    intro idx
    rw [issue_cons_false rfl, ih]
    have hlen : idx + 1 + cs.length = idx + (c :: cs).length := by
      simp [List.length_cons]
      omega
    rw [hlen]

theorem runSteps_noFail (idx : Nat) (ss : List Step) :
    runSteps (fun _ => false) idx ss = (stepCalls ss, none, idx + (stepCalls ss).length) :=
  issue_noFail (stepCalls ss) idx

theorem stepCalls_append (xs ys : List Step) :
    stepCalls (xs ++ ys) = stepCalls xs ++ stepCalls ys :=
  List.filterMap_append xs ys Step.syscall

theorem stepCalls_barrier_cons (ss : List Step) :
    stepCalls (Step.barrier :: ss) = stepCalls ss := rfl

theorem runRest_noFail : ∀ (rest : List (List Op)) (prev : List Op) (idx : Nat),
    runRest (fun _ => false) idx prev rest = (stepCalls (planRest prev rest), none, []) := by
  intro rest
  induction rest with
  | nil =>
    intro prev idx
    simp [runRest, runSteps_noFail, planRest]
  | cons E rest ih =>
    intro prev idx
    simp only [runRest, runSteps_noFail, ih, planRest]
    simp [stepCalls_barrier_cons, stepCalls_append, List.append_assoc]

theorem commitEpochs_noFail (es : List (List Op)) :
    commitEpochs (fun _ => false) es = (callsOfEpochs es, none, []) := by
  cases es with
  | nil => rfl
  | cons E rest =>
    unfold commitEpochs callsOfEpochs
    simp only [runSteps_noFail, runRest_noFail, planEpochs]
    simp [stepCalls_append]

theorem commitLive_noFail (l : Log) :
    commitLive (fun _ => false) l = (stepCalls (plan l), none, []) := by
  unfold commitLive plan
  rw [commitEpochs_noFail]
  rfl

theorem issue_succ_spec (fails : Nat → Bool) : ∀ (cs : List Syscall) (idx : Nat)
    {out : List Syscall} {i2 : Nat},
    issue fails idx cs = (out, none, i2) → out = cs ∧ i2 = idx + cs.length := by
  intro cs
  induction cs with
  | nil =>
    intro idx out i2 h
    simp only [issue, Prod.mk.injEq] at h
    obtain ⟨h1, _, h3⟩ := h
    exact ⟨h1.symm, by simp only [List.length_nil]; omega⟩
  | cons c cs ih =>
    intro idx out i2 h
    cases hf : fails idx
    · rw [issue_cons_false hf] at h
      rcases hr : issue fails (idx + 1) cs with ⟨o, f, i⟩
      rw [hr] at h
      simp only [Prod.mk.injEq] at h
      obtain ⟨h1, h2, h3⟩ := h
      cases f with
      | some j => simp at h2
      | none =>
        obtain ⟨ho, hi⟩ := ih (idx + 1) hr
        constructor
        · rw [← h1, ho]
        · simp only [List.length_cons]
          omega
    · rw [issue_cons_true hf] at h
      simp only [Prod.mk.injEq] at h
      obtain ⟨_, h2, _⟩ := h
      simp at h2

theorem issue_fail_spec (fails : Nat → Bool) : ∀ (cs : List Syscall) (idx : Nat)
    {out : List Syscall} {j i2 : Nat},
    issue fails idx cs = (out, some j, i2) →
    idx ≤ j ∧ j < idx + cs.length ∧ out = cs.take (j - idx) := by
  intro cs
  induction cs with
  | nil =>
    intro idx out j i2 h
    simp only [issue, Prod.mk.injEq] at h
    obtain ⟨_, h2, _⟩ := h
    simp at h2
  | cons c cs ih =>
    intro idx out j i2 h
    cases hf : fails idx
    · rw [issue_cons_false hf] at h
      rcases hr : issue fails (idx + 1) cs with ⟨o, f, i⟩
      rw [hr] at h
      simp only [Prod.mk.injEq] at h
      obtain ⟨h1, h2, h3⟩ := h
      cases f with
      | none => simp at h2
      | some j' =>
        obtain rfl : j = j' := (Option.some.inj h2).symm
        obtain ⟨hij, hbound, ho⟩ := ih (idx + 1) hr
        refine ⟨by omega, by simp only [List.length_cons]; omega, ?_⟩
        rw [← h1, ho]
        have harith : j - idx = (j - (idx + 1)) + 1 := by omega
        rw [harith, List.take_succ_cons]
    · rw [issue_cons_true hf] at h
      simp only [Prod.mk.injEq] at h
      obtain ⟨h1, h2, _⟩ := h
      obtain rfl : idx = j := Option.some.inj h2
      refine ⟨Nat.le_refl _, by simp only [List.length_cons]; omega, ?_⟩
      rw [← h1, Nat.sub_self]
      rfl

theorem runSteps_eq (fails : Nat → Bool) (idx : Nat) (ss : List Step) :
    runSteps fails idx ss = issue fails idx (stepCalls ss) := rfl

theorem stepCalls_planRest_cons (prev E : List Op) (rest : List (List Op)) :
    stepCalls (planRest prev (E :: rest))
      = stepCalls (p3456 prev) ++ (stepCalls (p12 E) ++ stepCalls (planRest E rest)) := by
  rw [planRest, stepCalls_append, stepCalls_barrier_cons, stepCalls_append, List.append_assoc]

theorem callsOfEpochs_cons (E : List Op) (rest : List (List Op)) :
    callsOfEpochs (E :: rest) = stepCalls (p12 E) ++ stepCalls (planRest E rest) := by
  unfold callsOfEpochs planEpochs
  rw [stepCalls_append]

theorem runRest_spec (fails : Nat → Bool) : ∀ (rest : List (List Op)) (prev : List Op)
    (idx : Nat),
    (∀ out rem, runRest fails idx prev rest = (out, none, rem)
        → out = stepCalls (planRest prev rest) ∧ rem = [])
    ∧ (∀ out j rem, runRest fails idx prev rest = (out, some j, rem) →
        idx ≤ j
        ∧ out = (stepCalls (planRest prev rest)).take (j - idx)
        ∧ rem ≠ []
        ∧ (∃ k, rem = (prev :: rest).drop k)
        ∧ ∃ done, stepCalls (p12 prev) ++ stepCalls (planRest prev rest)
              = done ++ callsOfEpochs rem
            ∧ done.length + idx ≤ j + (stepCalls (p12 prev)).length) := by
  intro rest
  induction rest with
  | nil =>
    intro prev idx
    constructor
    · intro out rem h
      simp only [runRest] at h
      rcases hr : runSteps fails idx (p3456 prev) with ⟨o, f, i⟩
      rw [hr] at h
      cases f with
      | some j => simp at h
      | none =>
        simp only [Prod.mk.injEq] at h
        obtain ⟨h1, _, h3⟩ := h
        obtain ⟨ho, _⟩ := issue_succ_spec fails _ idx (runSteps_eq fails idx (p3456 prev) ▸ hr)
        exact ⟨h1 ▸ ho.symm ▸ rfl, h3.symm⟩
    · intro out j rem h
      simp only [runRest] at h
      rcases hr : runSteps fails idx (p3456 prev) with ⟨o, f, i⟩
      rw [hr] at h
      cases f with
      | none => simp at h
      | some j' =>
        simp only [Prod.mk.injEq] at h
        obtain ⟨h1, h2, h3⟩ := h
        obtain rfl : j = j' := (Option.some.inj h2).symm
        obtain ⟨hij, hbound, ho⟩ :=
          issue_fail_spec fails _ idx (runSteps_eq fails idx (p3456 prev) ▸ hr)
        subst h1
        refine ⟨hij, by rw [ho]; rfl, by rw [← h3]; simp, ⟨0, by rw [← h3]; rfl⟩, ?_⟩
        refine ⟨[], ?_, by simp; omega⟩
        rw [← h3, callsOfEpochs_cons]
        simp [planRest]
  | cons E rest ih =>
    intro prev idx
    have hplancalls := stepCalls_planRest_cons prev E rest
    constructor
    · intro out rem h
      simp only [runRest] at h
      rcases hr1 : runSteps fails idx (p3456 prev) with ⟨o1, f1, i1⟩
      rw [hr1] at h
      cases f1 with
      | some j => simp at h
      | none =>
        obtain ⟨ho1, hi1⟩ :=
          issue_succ_spec fails _ idx (runSteps_eq fails idx (p3456 prev) ▸ hr1)
        rcases hr2 : runSteps fails i1 (p12 E) with ⟨o2, f2, i2⟩
        rw [hr2] at h
        cases f2 with
        | some j => simp at h
        | none =>
          obtain ⟨ho2, hi2⟩ :=
            issue_succ_spec fails _ i1 (runSteps_eq fails i1 (p12 E) ▸ hr2)
          rcases hr3 : runRest fails i2 E rest with ⟨o3, f3, rem3⟩
          rw [hr3] at h
          simp only [Prod.mk.injEq] at h
          obtain ⟨h1, h2, h3⟩ := h
          cases f3 with
          | some j => simp at h2
          | none =>
            obtain ⟨ho3, hrem3⟩ := (ih E i2).1 o3 rem3 hr3
            refine ⟨?_, by rw [← h3, hrem3]⟩
            rw [← h1, ho1, ho2, ho3, hplancalls, List.append_assoc]
    · intro out j rem h
      simp only [runRest] at h
      rcases hr1 : runSteps fails idx (p3456 prev) with ⟨o1, f1, i1⟩
      rw [hr1] at h
      cases f1 with
      | some j1 =>
        simp only [Prod.mk.injEq] at h
        obtain ⟨h1, h2, h3⟩ := h
        obtain rfl : j = j1 := (Option.some.inj h2).symm
        obtain ⟨hij, hbound, ho1⟩ :=
          issue_fail_spec fails _ idx (runSteps_eq fails idx (p3456 prev) ▸ hr1)
        subst h1
        refine ⟨hij, ?_, by rw [← h3]; simp, ⟨0, by rw [← h3]; rfl⟩, ?_⟩
        · rw [ho1, hplancalls, List.take_append_of_le_length (by omega)]
        · refine ⟨[], ?_, by simp; omega⟩
          rw [← h3, callsOfEpochs_cons]
          simp
      | none =>
        obtain ⟨ho1, hi1⟩ :=
          issue_succ_spec fails _ idx (runSteps_eq fails idx (p3456 prev) ▸ hr1)
        rcases hr2 : runSteps fails i1 (p12 E) with ⟨o2, f2, i2⟩
        rw [hr2] at h
        cases f2 with
        | some j2 =>
          simp only [Prod.mk.injEq] at h
          obtain ⟨h1, h2, h3⟩ := h
          obtain rfl : j = j2 := (Option.some.inj h2).symm
          obtain ⟨hij2, hbound2, ho2⟩ :=
            issue_fail_spec fails _ i1 (runSteps_eq fails i1 (p12 E) ▸ hr2)
          refine ⟨by omega, ?_, by rw [← h3]; simp, ⟨1, by rw [← h3]; rfl⟩, ?_⟩
          · rw [← h1, ho1, ho2, hplancalls]
            have harith : j - idx = (stepCalls (p3456 prev)).length + (j - i1) := by omega
            rw [harith, List.take_append,
              List.take_append_of_le_length (by omega)]
          · refine ⟨stepCalls (p12 prev) ++ stepCalls (p3456 prev), ?_, ?_⟩
            · rw [← h3, callsOfEpochs_cons, hplancalls, List.append_assoc]
            · simp only [List.length_append]
              omega
        | none =>
          obtain ⟨ho2, hi2⟩ :=
            issue_succ_spec fails _ i1 (runSteps_eq fails i1 (p12 E) ▸ hr2)
          rcases hr3 : runRest fails i2 E rest with ⟨o3, f3, rem3⟩
          rw [hr3] at h
          simp only [Prod.mk.injEq] at h
          obtain ⟨h1, h2, h3⟩ := h
          cases f3 with
          | none => simp at h2
          | some j3 =>
            obtain rfl : j = j3 := (Option.some.inj h2).symm
            obtain ⟨hij3, ho3, hrem3ne, ⟨k', hk'⟩, done', hdone', hdlen⟩ :=
              (ih E i2).2 o3 j rem3 hr3
            refine ⟨by omega, ?_, by rw [← h3]; exact hrem3ne,
              ⟨k' + 1, by rw [← h3, hk', List.drop_succ_cons]⟩, ?_⟩
            · rw [← h1, ho1, ho2, ho3, hplancalls]
              have harith : j - idx
                  = (stepCalls (p3456 prev)).length + ((stepCalls (p12 E)).length + (j - i2)) := by
                omega
              rw [harith, List.take_append, List.take_append, List.append_assoc]
            · refine ⟨stepCalls (p12 prev) ++ stepCalls (p3456 prev) ++ done', ?_, ?_⟩
              · rw [← h3, hplancalls]
                calc stepCalls (p12 prev)
                      ++ (stepCalls (p3456 prev)
                          ++ (stepCalls (p12 E) ++ stepCalls (planRest E rest)))
                    = stepCalls (p12 prev) ++ (stepCalls (p3456 prev)
                        ++ (done' ++ callsOfEpochs rem3)) := by rw [hdone']
                  _ = stepCalls (p12 prev) ++ stepCalls (p3456 prev) ++ done'
                        ++ callsOfEpochs rem3 := by simp [List.append_assoc]
              · simp only [List.length_append]
                omega

/-! ### Claim theorems -/

/-- C1: for every Log, the dry-run records and the live-mode OS calls are
produced from the same planned step sequence in the same order: the calls a
live commit issues are exactly the dry-run records with their denoted
syscalls substituted, and a planned step denotes no syscall exactly when it
is the `barrier` marker — the modes differ only in whether a call touches
the filesystem. -/
theorem dry_live_mode_equivalence (l : Log) :
    (commitLive (fun _ => false) l).1 = (dryRun l).filterMap recordSyscall
    ∧ ∀ s : Step, recordSyscall s.record = s.syscall
        ∧ (s.syscall = none ↔ s = Step.barrier) := by
  constructor
  · rw [commitLive_noFail]
    show stepCalls (plan l) = ((plan l).map Step.record).filterMap recordSyscall
    rw [List.filterMap_map]
    show (plan l).filterMap Step.syscall = _
    have hfun : Step.syscall = recordSyscall ∘ Step.record := by
      funext s
      cases s <;> rfl
    rw [hfun]
  · intro s
    refine ⟨by cases s <;> rfl, ?_⟩
    cases s <;> simp [Step.syscall]

/-- C2: after appending Operation B, a Barrier separates B from every earlier
Operation A whose `dest` equals B's `src`; a Barrier is freshly inserted if
and only if such an A sits in the currently open (unbarriered) Epoch, and an
Operation with no such dependency is appended without any Barrier. -/
theorem barrier_iff_dependency (l : Log) (B : Op) :
    (appendOp l B = l ++ [Entry.barrier, Entry.op B]
        ↔ ∃ s, B.srcPath = some s ∧ ∃ A ∈ openEpochOps l, A.destPath = some s)
    ∧ ((¬ ∃ s, B.srcPath = some s ∧ ∃ A ∈ openEpochOps l, A.destPath = some s)
        → appendOp l B = l ++ [Entry.op B])
    ∧ ∀ (l1 l2 : Log) (A : Op) (P : Path),
        l = l1 ++ Entry.op A :: l2 → A.destPath = some P → B.srcPath = some P →
        ∃ m1 m2, appendOp l B = l1 ++ Entry.op A :: m1 ++ Entry.barrier :: m2 ++ [Entry.op B] := by
  have hiff := dependsOnOpen_iff l B
  refine ⟨⟨?_, ?_⟩, ?_, ?_⟩
  · intro he
    cases hd : dependsOnOpen l B
    · rw [appendOp, hd] at he
      simp at he
    · exact hiff.mp hd
  · intro hex
    have hd : dependsOnOpen l B = true := hiff.mpr hex
    simp [appendOp, hd]
  · intro hnot
    have hd : dependsOnOpen l B = false := by
      cases hd : dependsOnOpen l B
      · rfl
      · exact absurd (hiff.mp hd) hnot
    simp [appendOp, hd]
  · intro l1 l2 A P hl hA hB
    have happ : appendOp l B
        = l ++ ((if dependsOnOpen l B then [Entry.barrier] else []) ++ [Entry.op B]) := by
      cases hd : dependsOnOpen l B <;> simp [appendOp, hd]
    by_cases hb : Entry.barrier ∈ l2
    · obtain ⟨x, y, hxy⟩ := List.append_of_mem hb
      refine ⟨x, y ++ (if dependsOnOpen l B then [Entry.barrier] else []), ?_⟩
      rw [happ, hl, hxy]
      simp [List.append_assoc]
    · have hmem : A ∈ openEpochOps l := by
        rw [hl]
        exact mem_openEpochOps_of_noBarrier l1 A l2 fun e he hbe => hb (hbe ▸ he)
      have hd : dependsOnOpen l B = true := hiff.mpr ⟨P, hB, A, hmem, hA⟩
      refine ⟨l2, [], ?_⟩
      rw [happ, hd, hl]
      simp [List.append_assoc]

/-- C3: for every `Move{src, dest}` in any Epoch of a Log, the deferred
unlink of `src` appears in the committed (tagged) plan, and it is planned
strictly after that Epoch's placement of `dest`, after the post-placement
fsync of `dest`, and after the fsync of `dest`'s parent directory; indeed the
unlink never precedes any phase-1-to-4 step of its own Epoch. -/
theorem move_unlink_after_durability (l : Log) (k : Nat) (E : List Op) (s d : Path) (r : Bool)
    (hE : (epochsOf l)[k]? = some E) (hmv : Op.move s d r ∈ E) :
    (∃ i : Fin (planT l).length, (planT l).get i = (k, 5, Step.unlink s))
    ∧ ∀ i : Fin (planT l).length, (planT l).get i = (k, 5, Step.unlink s) →
        ((∃ j : Fin (planT l).length, (j : Nat) < (i : Nat)
            ∧ (planT l).get j
                = (k, 2, if r then Step.replace (tmpName d) d else Step.rename (tmpName d) d))
        ∧ (∃ j : Fin (planT l).length, (j : Nat) < (i : Nat)
            ∧ (planT l).get j = (k, 3, Step.fsyncWin d))
        ∧ (∃ j : Fin (planT l).length, (j : Nat) < (i : Nat)
            ∧ (planT l).get j = (k, 4, Step.fsyncDir (parentDir d)))
        ∧ ∀ (j : Fin (planT l).length) (ph : Nat) (st : Step),
            (planT l).get j = (k, ph, st) → ph ≤ 4 → (j : Nat) < (i : Nat)) := by
  obtain ⟨h12, h3456⟩ := blocks_in_planT l k E hE
  have hst : (Op.move s d r).placement
      = some (if r then Step.replace (tmpName d) d else Step.rename (tmpName d) d) := rfl
  have hp2 : (if r then Step.replace (tmpName d) d else Step.rename (tmpName d) d) ∈ phase2 E :=
    mem_phase2 hmv hst
  have hpd : (if r then Step.replace (tmpName d) d else Step.rename (tmpName d) d).placeDest
      = some d := by
    cases r <;> rfl
  have hplace : (k, 2, if r then Step.replace (tmpName d) d else Step.rename (tmpName d) d)
      ∈ planT l := h12 _ (placeT_mem hp2)
  have hwin : (k, 3, Step.fsyncWin d) ∈ planT l :=
    h3456 _ (fsyncWinT_mem (mem_phase3 hp2 hpd))
  have hdir : (k, 4, Step.fsyncDir (parentDir d)) ∈ planT l :=
    h3456 _ (fsyncDirT_mem (mem_phase4_dest hp2 hpd))
  have hunl : (k, 5, Step.unlink s) ∈ planT l :=
    h3456 _ (unlinkT_mem (mem_phase5 hmv rfl))
  have hord := List.pairwise_iff_get.mp (pairwise_planT l)
  refine ⟨List.mem_iff_get.mp hunl, ?_⟩
  intro i hi
  have key : ∀ (j : Fin (planT l).length) (ph' : Nat) (st' : Step),
      (planT l).get j = (k, ph', st') → ph' ≤ 4 → (j : Nat) < (i : Nat) := by
    intro j ph' st' hj hph
    rcases lt_trichotomy (j : Nat) (i : Nat) with h | h | h
    · exact h
    · exfalso
      have hij : j = i := Fin.ext h
      rw [hij, hi] at hj
      have h5 : (5 : Nat) = ph' := by
        simpa using congrArg (fun x : Nat × Nat × Step => x.2.1) hj
      omega
    · exfalso
      have hr := hord i j (by exact h)
      rw [hi, hj] at hr
      have h5 : (5 : Nat) ≤ ph' := hr rfl
      omega
  refine ⟨?_, ?_, ?_, key⟩
  · obtain ⟨j, hj⟩ := List.mem_iff_get.mp hplace
    exact ⟨j, key j 2 _ hj (by omega), hj⟩
  · obtain ⟨j, hj⟩ := List.mem_iff_get.mp hwin
    exact ⟨j, key j 3 _ hj (by omega), hj⟩
  · obtain ⟨j, hj⟩ := List.mem_iff_get.mp hdir
    exact ⟨j, key j 4 _ hj (by omega), hj⟩

/-- C3 (witness): the unlink-after-durability property evaluated on a Log
holding one `atomic_move`. -/
theorem move_unlink_after_durability_witness :
    ((epochsOf (atomic_move "test.c" "z/test.c" true []))[0]?
        = some [Op.move "test.c" "z/test.c" true]
      ∧ Op.move "test.c" "z/test.c" true ∈ [Op.move "test.c" "z/test.c" true])
    ∧ ((∃ i : Fin (planT (atomic_move "test.c" "z/test.c" true [])).length,
          (planT (atomic_move "test.c" "z/test.c" true [])).get i
            = (0, 5, Step.unlink "test.c"))
      ∧ ∀ i : Fin (planT (atomic_move "test.c" "z/test.c" true [])).length,
          (planT (atomic_move "test.c" "z/test.c" true [])).get i
              = (0, 5, Step.unlink "test.c") →
          ((∃ j : Fin (planT (atomic_move "test.c" "z/test.c" true [])).length,
              (j : Nat) < (i : Nat)
              ∧ (planT (atomic_move "test.c" "z/test.c" true [])).get j
                  = (0, 2, if true then Step.replace (tmpName "z/test.c") "z/test.c"
                      else Step.rename (tmpName "z/test.c") "z/test.c"))
          ∧ (∃ j : Fin (planT (atomic_move "test.c" "z/test.c" true [])).length,
              (j : Nat) < (i : Nat)
              ∧ (planT (atomic_move "test.c" "z/test.c" true [])).get j
                  = (0, 3, Step.fsyncWin "z/test.c"))
          ∧ (∃ j : Fin (planT (atomic_move "test.c" "z/test.c" true [])).length,
              (j : Nat) < (i : Nat)
              ∧ (planT (atomic_move "test.c" "z/test.c" true [])).get j
                  = (0, 4, Step.fsyncDir (parentDir "z/test.c")))
          ∧ ∀ (j : Fin (planT (atomic_move "test.c" "z/test.c" true [])).length)
              (ph : Nat) (st : Step),
              (planT (atomic_move "test.c" "z/test.c" true [])).get j = (0, ph, st)
              → ph ≤ 4 → (j : Nat) < (i : Nat))) :=
  ⟨⟨by decide, by decide⟩,
    move_unlink_after_durability (atomic_move "test.c" "z/test.c" true []) 0
      [Op.move "test.c" "z/test.c" true] "test.c" "z/test.c" true (by decide) (by decide)⟩

/-- C9: if a live commit fails at call index `jf`, the calls it issued are
exactly the unmodified prefix of length `jf` of the planned call sequence (no
rollback), the remaining Epochs in the Log are a non-empty suffix of the
original Epochs (every not-yet-executed Operation remains), and a retry —
committing exactly the remaining Epochs — issues precisely the planned calls
after those of the Epochs completed before the failure, re-executing none of
them. -/
theorem failed_commit_preserves_log (fails : Nat → Bool) (l : Log) (jf : Nat)
    (h : (commitLive fails l).2.1 = some jf) :
    (commitLive fails l).1 = ((commitLive (fun _ => false) l).1).take jf
    ∧ (commitLive fails l).2.2 ≠ []
    ∧ ∃ k done,
        (commitLive fails l).2.2 = (epochsOf l).drop k
        ∧ (commitLive (fun _ => false) l).1
            = done ++ (commitEpochs (fun _ => false) ((commitLive fails l).2.2)).1
        ∧ done.length ≤ jf
        ∧ ∃ tail, (commitLive fails l).1 = done ++ tail := by
  have hfull : (commitLive (fun _ => false) l).1 = stepCalls (plan l) := by
    rw [commitLive_noFail]
  cases hep : epochsOf l with
  | nil =>
    rw [commitLive, hep] at h
    simp [commitEpochs] at h
  | cons E rest =>
    have hcL : commitLive fails l = commitEpochs fails (E :: rest) := by
      rw [commitLive, hep]
    have hfull2 : stepCalls (plan l) = stepCalls (p12 E) ++ stepCalls (planRest E rest) := by
      rw [plan, hep]
      exact callsOfEpochs_cons E rest
    rw [hcL] at h ⊢
    rw [hfull, hfull2]
    rcases hr1 : runSteps fails 0 (p12 E) with ⟨o1, f1, i1⟩
    cases f1 with
    | some j1 =>
      have hres : commitEpochs fails (E :: rest) = (o1, some j1, E :: rest) := by
        simp [commitEpochs, hr1]
      rw [hres] at h
      have hjf : j1 = jf := by simpa using h
      subst hjf
      obtain ⟨_, hbound, ho1⟩ :=
        issue_fail_spec fails _ 0 (runSteps_eq fails 0 (p12 E) ▸ hr1)
      rw [hres]
      refine ⟨?_, by simp, 0, [], by simp, ?_, by simp, o1, by simp⟩
      · show o1 = ((stepCalls (p12 E) ++ stepCalls (planRest E rest))).take j1
        rw [List.take_append_of_le_length (by omega), ho1, Nat.sub_zero]
      · show stepCalls (p12 E) ++ stepCalls (planRest E rest)
            = [] ++ (commitEpochs (fun _ => false) (E :: rest)).1
        rw [commitEpochs_noFail]
        show _ = [] ++ callsOfEpochs (E :: rest)
        rw [callsOfEpochs_cons, List.nil_append]
    | none =>
      obtain ⟨ho1, hi1⟩ :=
        issue_succ_spec fails _ 0 (runSteps_eq fails 0 (p12 E) ▸ hr1)
      rcases hr2 : runRest fails i1 E rest with ⟨o2, f2, rem2⟩
      have hres : commitEpochs fails (E :: rest) = (o1 ++ o2, f2, rem2) := by
        simp [commitEpochs, hr1, hr2]
      rw [hres] at h
      cases f2 with
      | none => simp at h
      | some j2 =>
        have hjf : j2 = jf := by simpa using h
        subst hjf
        obtain ⟨hij2, ho2, hrem2ne, ⟨k, hk⟩, done', hdone', hdlen⟩ :=
          (runRest_spec fails rest E i1).2 o2 j2 rem2 hr2
        rw [hres]
        have hdlen2 : done'.length ≤ j2 := by omega
        have hcs : o1 ++ o2 = (stepCalls (p12 E) ++ stepCalls (planRest E rest)).take j2 := by
          have harith : j2 = (stepCalls (p12 E)).length + (j2 - i1) := by omega
          rw [harith, List.take_append, ho1, ho2]
        refine ⟨hcs, by simpa using hrem2ne, k, done', by simpa using hk, ?_, hdlen2, ?_⟩
        · show stepCalls (p12 E) ++ stepCalls (planRest E rest)
              = done' ++ (commitEpochs (fun _ => false) rem2).1
          rw [commitEpochs_noFail]
          exact hdone'
        · refine ⟨(callsOfEpochs rem2).take (j2 - done'.length), ?_⟩
          show o1 ++ o2 = done' ++ (callsOfEpochs rem2).take (j2 - done'.length)
          rw [hcs, hdone', List.take_append_eq_append_take, List.take_of_length_le hdlen2]

/-- C9 (witness): a live commit of the three-write Log with call index 2
failing, evaluated concretely. -/
theorem failed_commit_preserves_log_witness :
    ((commitLive (fun n => n == 2) (writesLog [] [] [])).2.1 = some 2)
    ∧ ((commitLive (fun n => n == 2) (writesLog [] [] [])).1
          = ((commitLive (fun _ => false) (writesLog [] [] [])).1).take 2
      ∧ (commitLive (fun n => n == 2) (writesLog [] [] [])).2.2 ≠ []
      ∧ ∃ k done,
          (commitLive (fun n => n == 2) (writesLog [] [] [])).2.2
              = (epochsOf (writesLog [] [] [])).drop k
          ∧ (commitLive (fun _ => false) (writesLog [] [] [])).1
              = done ++ (commitEpochs (fun _ => false)
                  ((commitLive (fun n => n == 2) (writesLog [] [] [])).2.2)).1
          ∧ done.length ≤ 2
          ∧ ∃ tail, (commitLive (fun n => n == 2) (writesLog [] [] [])).1 = done ++ tail) :=
  ⟨by decide,
    failed_commit_preserves_log (fun n => n == 2) (writesLog [] [] []) 2 (by decide)⟩

/-- C6: in every Epoch of every Log, the phase-4 `fsync_dir` group names each
directory at most once — and a directory appears in it exactly when some
phase-2 placement step of that Epoch touched it as destination parent or as
source parent; committing many Operations into one directory therefore yields
a single `fsync_dir` for it per Epoch. -/
theorem fsync_dir_dedup (l : Log) (E : List Op) (hE : E ∈ epochsOf l) :
    (phase4 E).Nodup
    ∧ ∀ d : Path, d ∈ phase4 E
        ↔ ∃ st ∈ phase2 E,
            (Step.placeDest st).map parentDir = some d
            ∨ (Step.placeSrc st).map parentDir = some d := by
  clear hE
  constructor
  · unfold phase4
    refine List.Nodup.append (nodup_sortDedup _) ((nodup_sortDedup _).filter _) ?_
    intro a ha1 ha2
    have hpred := List.of_mem_filter ha2
    simp only [Bool.not_eq_eq_eq_not, Bool.not_true, decide_eq_false_iff_not] at hpred
    exact hpred ha1
  · intro d
    have hsplit : d ∈ phase4 E ↔ d ∈ destDirs E ∨ d ∈ srcDirs E := by
      unfold phase4
      rw [List.mem_append]
      constructor
      · rintro (h | h)
        · exact Or.inl h
        · exact Or.inr (List.mem_of_mem_filter h)
      · rintro (h | h)
        · exact Or.inl h
        · by_cases hd : d ∈ destDirs E
          · exact Or.inl hd
          · refine Or.inr (List.mem_filter.mpr ⟨h, ?_⟩)
            simp [hd]
    have hdd : d ∈ destDirs E
        ↔ ∃ st ∈ phase2 E, (Step.placeDest st).map parentDir = some d := by
      unfold destDirs
      rw [mem_sortDedup, List.mem_map]
      constructor
      · rintro ⟨x, hx, hpd⟩
        obtain ⟨st, hst, hplace⟩ := List.mem_filterMap.mp hx
        exact ⟨st, hst, by rw [hplace, Option.map_some', hpd]⟩
      · rintro ⟨st, hst, hmap⟩
        obtain ⟨x, hplace, hpd⟩ := Option.map_eq_some'.mp hmap
        exact ⟨x, List.mem_filterMap.mpr ⟨st, hst, hplace⟩, hpd⟩
    have hsd : d ∈ srcDirs E
        ↔ ∃ st ∈ phase2 E, (Step.placeSrc st).map parentDir = some d := by
      unfold srcDirs
      rw [mem_sortDedup, List.mem_map]
      constructor
      · rintro ⟨x, hx, hpd⟩
        obtain ⟨st, hst, hplace⟩ := List.mem_filterMap.mp hx
        exact ⟨st, hst, by rw [hplace, Option.map_some', hpd]⟩
      · rintro ⟨st, hst, hmap⟩
        obtain ⟨x, hplace, hpd⟩ := Option.map_eq_some'.mp hmap
        exact ⟨x, List.mem_filterMap.mpr ⟨st, hst, hplace⟩, hpd⟩
    rw [hsplit, hdd, hsd]
    constructor
    · rintro (⟨st, hst, h⟩ | ⟨st, hst, h⟩)
      · exact ⟨st, hst, Or.inl h⟩
      · exact ⟨st, hst, Or.inr h⟩
    · rintro ⟨st, hst, h | h⟩
      · exact Or.inl ⟨st, hst, h⟩
      · exact Or.inr ⟨st, hst, h⟩

/-- C6 (witness): the phase-4 group of the Epoch holding the three writes is
duplicate-free and characterised by the touched parent directories. -/
theorem fsync_dir_dedup_witness :
    [Op.write "test.a" [], Op.write "test.b" [], Op.write "test.c" []]
        ∈ epochsOf (writesLog [] [] [])
    ∧ ((phase4 [Op.write "test.a" [], Op.write "test.b" [], Op.write "test.c" []]).Nodup
      ∧ ∀ d : Path,
          d ∈ phase4 [Op.write "test.a" [], Op.write "test.b" [], Op.write "test.c" []]
          ↔ ∃ st ∈ phase2 [Op.write "test.a" [], Op.write "test.b" [], Op.write "test.c" []],
              (Step.placeDest st).map parentDir = some d
              ∨ (Step.placeSrc st).map parentDir = some d) :=
  ⟨by decide, fsync_dir_dedup (writesLog [] [] [])
    [Op.write "test.a" [], Op.write "test.b" [], Op.write "test.c" []] (by decide)⟩

/-- C2 (witness): appending a rename whose source is the destination of the
single Operation in the open Epoch yields a Log in which a Barrier stands
between the two. -/
theorem barrier_iff_dependency_witness :
    ∃ m1 m2, appendOp [Entry.op (Op.write "p" [])] (Op.rename "p" "q" false)
      = [] ++ Entry.op (Op.write "p" []) :: m1 ++ Entry.barrier :: m2
          ++ [Entry.op (Op.rename "p" "q" false)] :=
  (barrier_iff_dependency [Entry.op (Op.write "p" [])] (Op.rename "p" "q" false)).2.2
    [] [] (Op.write "p" []) "p" rfl rfl rfl

/-- C4: three `atomic_write` calls for `test.a`, `test.b`, `test.c` into the
current directory, committed in dry-run, produce exactly an fsync record for
each `.part` temp file, then a rename record of each `.part` to its final
name, then an `fsync_win` record for each final file, then exactly one
`fsync_dir` record for `"."`. -/
theorem three_writes_dry_run_plan (b1 b2 b3 : List Nat) :
    ∃ g1 g2 g3,
      dryRun (writesLog b1 b2 b3) = g1 ++ g2 ++ g3 ++ [["fsync_dir", "."]]
      ∧ g1.Perm [["fsync", "test.a.part"], ["fsync", "test.b.part"], ["fsync", "test.c.part"]]
      ∧ g2.Perm [["rename", "test.a.part", "test.a"], ["rename", "test.b.part", "test.b"],
          ["rename", "test.c.part", "test.c"]]
      ∧ g3.Perm [["fsync_win", "test.a"], ["fsync_win", "test.b"], ["fsync_win", "test.c"]] := by
  refine ⟨[["fsync", "test.a.part"], ["fsync", "test.b.part"], ["fsync", "test.c.part"]],
    [["rename", "test.a.part", "test.a"], ["rename", "test.b.part", "test.b"],
      ["rename", "test.c.part", "test.c"]],
    [["fsync_win", "test.a"], ["fsync_win", "test.b"], ["fsync_win", "test.c"]],
    rfl, List.Perm.refl _, List.Perm.refl _, List.Perm.refl _⟩

/-- C5 (counterexample): in the dry-run output of the rename scenario, the
unique `barrier` marker sits at index 6, before the earlier Epoch's
durability records (`fsync_win test.a` at index 7) rather than after them, so
the barrier does not separate the rename's Epoch (its `rename` record is at
index 11) from the earlier Epoch's durability steps: those durability steps
follow the barrier, on the same side as the rename's Epoch. -/
theorem barrier_position_counterexample :
    (dryRun (renameLog [] [] [])).count ["barrier"] = 1
    ∧ (dryRun (renameLog [] [] [])).indexOf ["barrier"] = 6
    ∧ (dryRun (renameLog [] [] [])).indexOf ["fsync_win", "test.a"] = 7
    ∧ (dryRun (renameLog [] [] [])).indexOf ["rename", "test.a", "a/test.a"] = 11
    ∧ (dryRun (renameLog [] [] [])).indexOf ["barrier"]
        < (dryRun (renameLog [] [] [])).indexOf ["fsync_win", "test.a"] := by
  exact ⟨rfl, rfl, rfl, rfl, by decide⟩

/-- C5 (amended): appending `atomic_rename("test.a", "a/test.a", replace=False)`
to an engine whose Log already contains the three writes inserts exactly one
Barrier before the rename's Epoch, and the committed plan then renames
`test.a` into `a/`, fsyncs the placed file, and fsyncs directory `a` then
directory `"."`; in the dry-run output the barrier marker follows the earlier
Epoch's rename records, and the earlier Epoch's durability records come after
the barrier, before the rename's Epoch's records. -/
theorem rename_into_subdir_plan (b1 b2 b3 : List Nat) :
    renameLog b1 b2 b3
        = writesLog b1 b2 b3 ++ [Entry.barrier, Entry.op (Op.rename "test.a" "a/test.a" false)]
    ∧ dryRun (renameLog b1 b2 b3) = [
        ["fsync", "test.a.part"], ["fsync", "test.b.part"], ["fsync", "test.c.part"],
        ["rename", "test.a.part", "test.a"], ["rename", "test.b.part", "test.b"],
        ["rename", "test.c.part", "test.c"],
        ["barrier"],
        ["fsync_win", "test.a"], ["fsync_win", "test.b"], ["fsync_win", "test.c"],
        ["fsync_dir", "."],
        ["rename", "test.a", "a/test.a"],
        ["fsync_win", "a/test.a"],
        ["fsync_dir", "a"], ["fsync_dir", "."]] :=
  ⟨rfl, rfl⟩

/-- C7: committing in dry-run mode is deterministic and does not mutate the
Log it reads: on a fresh copy of an engine, a first dry-run commit produces
the plan of the original Log, a second dry-run commit on the same copy
produces the identical output sequence, and the original engine's Log is
unchanged throughout. -/
theorem dry_run_idempotent (h : Heap) (i : Nat) :
    ((h.copy i).1.commitDry (h.copy i).2).1 = dryRun (h.logs i)
    ∧ (((h.copy i).1.commitDry (h.copy i).2).2.commitDry (h.copy i).2).1
        = ((h.copy i).1.commitDry (h.copy i).2).1
    ∧ ((h.copy i).1.commitDry (h.copy i).2).2.logs i = h.logs i := by
  refine ⟨?_, rfl, ?_⟩
  · simp [Heap.copy, Heap.commitDry]
  · simp [Heap.copy, Heap.commitDry]

/-- C8: `copy()` yields an engine whose Log has the same contents as the
original but shares no mutable state with it: dry-run committing the copy
leaves the original Log's contents unchanged, and an Operation appended to
the original afterwards extends the original sequence. -/
theorem copy_independence (h : Heap) (i : Nat) (o : Op) (hi : i < h.next) :
    (h.copy i).1.logs (h.copy i).2 = h.logs i
    ∧ ((h.copy i).1.commitDry (h.copy i).2).2.logs i = h.logs i
    ∧ ((((h.copy i).1.commitDry (h.copy i).2).2.append i o).logs i
        = appendOp (h.logs i) o) := by
  have hne : i ≠ h.next := Nat.ne_of_lt hi
  refine ⟨?_, ?_, ?_⟩
  · simp [Heap.copy, Heap.commitDry]
  · simp [Heap.copy, Heap.commitDry, hne]
  · simp [Heap.copy, Heap.commitDry, Heap.append, hne]

/-- C8 (witness): the copy/commit/append frame property evaluated on a
one-engine store holding an empty Log. -/
theorem copy_independence_witness :
    0 < (Heap.mk 1 fun _ => [] : Heap).next
    ∧ ((Heap.mk 1 fun _ => [] : Heap).copy 0).1.logs ((Heap.mk 1 fun _ => [] : Heap).copy 0).2
        = (Heap.mk 1 fun _ => [] : Heap).logs 0
    ∧ (((Heap.mk 1 fun _ => [] : Heap).copy 0).1.commitDry
          ((Heap.mk 1 fun _ => [] : Heap).copy 0).2).2.logs 0
        = (Heap.mk 1 fun _ => [] : Heap).logs 0
    ∧ (((((Heap.mk 1 fun _ => [] : Heap).copy 0).1.commitDry
          ((Heap.mk 1 fun _ => [] : Heap).copy 0).2).2.append 0 (Op.unlink "p")).logs 0
        = appendOp ((Heap.mk 1 fun _ => [] : Heap).logs 0) (Op.unlink "p")) := by
  refine ⟨by decide, ?_⟩
  exact copy_independence (Heap.mk 1 fun _ => []) 0 (Op.unlink "p") (by decide)

/-- C10: every destination-creating Operation, `Link` and `Symlink` included,
is staged through the temporary sibling `dest + ".part"` in `dest`'s own
directory; that temp path is fsynced in phase 1 of any Epoch containing the
Operation, and it is made visible at the final name only by a single atomic
rename or replace placement step, never directly under the final name. -/
theorem staging_via_part_sibling (o : Op) (d : Path)
    (hc : o.destCreating = true) (hd : o.destPath = some d) :
    o.tmpFsync = some (tmpName d)
    ∧ parentDir (tmpName d) = parentDir d
    ∧ tmpName d ≠ d
    ∧ (o.placement = some (Step.rename (tmpName d) d)
        ∨ o.placement = some (Step.replace (tmpName d) d))
    ∧ ∀ E : List Op, o ∈ E → tmpName d ∈ phase1 E := by
  cases o with
  | write d' b =>
    have hdd : d' = d := by simpa [Op.destPath] using hd
    subst hdd
    exact ⟨rfl, parentDir_tmpName d', tmpName_ne d', Or.inl rfl,
      fun E hE => mem_phase1 hE rfl⟩
  | rename s d' r => simp [Op.destCreating] at hc
  | link s d' r f =>
    have hdd : d' = d := by simpa [Op.destPath] using hd
    subst hdd
    refine ⟨rfl, parentDir_tmpName d', tmpName_ne d', ?_, fun E hE => mem_phase1 hE rfl⟩
    cases r
    · exact Or.inl rfl
    · exact Or.inr rfl
  | symlink t d' r =>
    have hdd : d' = d := by simpa [Op.destPath] using hd
    subst hdd
    refine ⟨rfl, parentDir_tmpName d', tmpName_ne d', ?_, fun E hE => mem_phase1 hE rfl⟩
    cases r
    · exact Or.inl rfl
    · exact Or.inr rfl
  | copy s d' r f =>
    have hdd : d' = d := by simpa [Op.destPath] using hd
    subst hdd
    refine ⟨rfl, parentDir_tmpName d', tmpName_ne d', ?_, fun E hE => mem_phase1 hE rfl⟩
    cases r
    · exact Or.inl rfl
    · exact Or.inr rfl
  | move s d' r =>
    have hdd : d' = d := by simpa [Op.destPath] using hd
    subst hdd
    refine ⟨rfl, parentDir_tmpName d', tmpName_ne d', ?_, fun E hE => mem_phase1 hE rfl⟩
    cases r
    · exact Or.inl rfl
    · exact Or.inr rfl
  | unlink p => simp [Op.destCreating] at hc

/-- C10 (witness): the staging property evaluated on a `Symlink` Operation. -/
theorem staging_via_part_sibling_witness :
    ((Op.symlink "b/test.c" "test.c" true).destCreating = true
      ∧ (Op.symlink "b/test.c" "test.c" true).destPath = some "test.c")
    ∧ ((Op.symlink "b/test.c" "test.c" true).tmpFsync = some (tmpName "test.c")
      ∧ parentDir (tmpName "test.c") = parentDir "test.c"
      ∧ tmpName "test.c" ≠ "test.c"
      ∧ ((Op.symlink "b/test.c" "test.c" true).placement
            = some (Step.rename (tmpName "test.c") "test.c")
          ∨ (Op.symlink "b/test.c" "test.c" true).placement
            = some (Step.replace (tmpName "test.c") "test.c"))
      ∧ ∀ E : List Op, Op.symlink "b/test.c" "test.c" true ∈ E → tmpName "test.c" ∈ phase1 E) :=
  ⟨⟨rfl, rfl⟩, staging_via_part_sibling (Op.symlink "b/test.c" "test.c" true) "test.c" rfl rfl⟩

end Kisstdlib
